import Mathlib

/-
Verification development for the django-ldap-sync management command
(ldap_sync/management/commands/syncldap.py).

Shallow embedding conventions:
- Python byte strings are lists of byte values (List Nat); decoding is an
  explicit UTF-8 decoder returning Option String.
- A directory entry is a pair of a common name and either a dict of raw
  attributes (modelled as an ordered association list, attribute name to a
  list of raw byte values) or a non-dict sentinel (Option.none), matching
  the isinstance(ldap_attributes, dict) probe in the source.
- The Django ORM (the local identity store) is modelled as a list of
  records; get_or_create, save and the iexact/exact lookups are given
  explicit semantics.  Store-level IntegrityError / DataError outcomes are
  driven by oracles carried in a SyncEnv environment, since the store is an
  external collaborator.
- Uncaught Python exceptions are modelled by an Option PyErr component of
  each result: computation stops at the first error, returning the state
  reached so far, so that side effects performed before the raise stay
  observable.
- str.lower() and the iexact lookup are modelled by ASCII lowering, which
  agrees with Python on the ASCII range used throughout.
-/

namespace LdapSync

/-- Uncaught Python exception kinds that the command can raise. -/
inductive PyErr where
  | keyError
  | indexError
  | unicodeDecodeError
  | doesNotExist
  deriving DecidableEq, Repr

/-- A raw directory attribute value: a byte string. -/
abbrev Bytes := List Nat

/-- Local-field-name to decoded-string mappings (Python dicts of strings),
as ordered association lists. -/
abbrev Fields := List (String × String)

/-- A directory attribute dict: attribute name to list of raw byte values. -/
abbrev LdapDict := List (String × List Bytes)

/-- Association-list lookup, first binding wins (Python dict indexing on our
ordered model). -/
def alookup {α : Type} : List (String × α) → String → Option α
  | [], _ => none
  | (k', v) :: rest, k => if k' == k then some v else alookup rest k

/-- Python dict assignment: overwrite an existing binding in place, else
append a new one at the end (dict insertion order). -/
def setField : Fields → String → String → Fields
  | [], k, v => [(k, v)]
  | (k', v') :: rest, k, v =>
    if k' == k then (k, v) :: rest else (k', v') :: setField rest k v

/-- Keys of an association list. -/
def keysOf {α : Type} (xs : List (String × α)) : List String :=
  xs.map Prod.fst

/-- ASCII lowering of one character, as Python str.lower() acts on the
ASCII range. -/
def lowerChar (c : Char) : Char :=
  if 65 ≤ c.toNat ∧ c.toNat ≤ 90 then Char.ofNat (c.toNat + 32) else c

/-- ASCII lowering of a string; models str.lower() and the iexact lookup
normalisation. -/
def lowerStr (s : String) : String :=
  ⟨s.data.map lowerChar⟩

/-- Incremental strict UTF-8 decoder: bytes still expected in the current
sequence, code point accumulated so far, minimal legal code point for the
sequence (overlong rejection), accumulated output in reverse. -/
def utf8Go : List Nat → Nat → Nat → Nat → List Char → Option (List Char)
  | [], 0, _, _, acc => some acc.reverse
  | [], _ + 1, _, _, _ => none
  | b :: rest, 0, _, _, acc =>
    if b < 0x80 then utf8Go rest 0 0 0 (Char.ofNat b :: acc)
    else if b < 0xC0 then none
    else if b < 0xE0 then utf8Go rest 1 (b - 0xC0) 0x80 acc
    else if b < 0xF0 then utf8Go rest 2 (b - 0xE0) 0x800 acc
    else if b < 0xF8 then utf8Go rest 3 (b - 0xF0) 0x10000 acc
    else none
  | b :: rest, p + 1, cp, minCp, acc =>
    if 0x80 ≤ b ∧ b < 0xC0 then
      let cp' := cp * 0x40 + (b - 0x80)
      if p = 0 then
        if cp' < minCp ∨ (0xD800 ≤ cp' ∧ cp' ≤ 0xDFFF) ∨ 0x10FFFF < cp' then none
        else utf8Go rest 0 0 0 (Char.ofNat cp' :: acc)
      else utf8Go rest p cp' minCp acc
    else none

/-- Strict UTF-8 decoding of a byte string, as bytes.decode(utf-8):
some on success, none on a UnicodeDecodeError. -/
def decodeUtf8 (bs : Bytes) : Option String :=
  (utf8Go bs 0 0 0 []).map (fun cs => ⟨cs⟩)

/-- The resolved settings object consumed by the command (SyncSettings in
the source).  Filters are represented by whether they are configured. -/
structure SyncSettings where
  GROUP_FILTER : Bool
  USER_FILTER : Bool
  GROUP_ATTRIBUTES : List (String × String)
  GROUPNAME_FIELD : String
  USER_ATTRIBUTES : List (String × String)
  USERNAME_FIELD : String
  USER_EXTRA_ATTRIBUTES : List String
  USER_CALLBACKS : List String
  REMOVED_USER_CALLBACKS : List String

/-- A local user record: its persisted fields and whether its password is
usable (set_unusable_password clears the flag). -/
structure UserRec where
  fields : Fields
  usable : Bool
  deriving DecidableEq, Repr

/-- A local group record: its persisted fields. -/
abbrev GroupRec := Fields

/-- A directory search result entry: common name paired with either a dict
of attributes or the non-dict sentinel. -/
abbrev Entry := String × Option LdapDict

/-- External collaborator behaviour: resolved user-sync callbacks (which
may mutate the in-memory user), and oracles deciding when the store raises
IntegrityError / DataError at get_or_create and IntegrityError at save. -/
structure SyncEnv where
  userCallback : String → UserRec → LdapDict → Bool → Bool → UserRec
  gocUserFails : String → Bool
  gocGroupFails : String → Bool
  saveFails : UserRec → Bool

/-- Observable side-effect events: each user-sync callback invocation with
the flags it was passed, and each removal callback invocation. -/
inductive Event where
  | userCb (path : String) (username : String) (created : Bool) (updated : Bool)
  | removalCb (path : String) (username : String)
  deriving DecidableEq, Repr

/-- Group defaults loop of sync_ldap_groups.  Faithful to the source,
which reads self.settings.GROUP_ATTRIBUTES[ldap_name][0].decode(utf-8) —
the configured local field name's first byte — rather than the directory
attribute value; only KeyError is caught (to an empty string), while an
IndexError on an empty field name or a UnicodeDecodeError on a non-ASCII
first byte propagates. -/
def groupDefaultsLoop (s : SyncSettings) : List (String × String) → Fields →
    Except PyErr Fields
  | [], defaults => .ok defaults
  | (ldap_name, field) :: rest, defaults =>
    match alookup s.GROUP_ATTRIBUTES ldap_name with
    | none => groupDefaultsLoop s rest (setField defaults field "")
    | some f =>
      match f.data with
      | [] => .error .indexError
      | c :: _ =>
        if c.toNat < 0x80 then
          groupDefaultsLoop s rest (setField defaults field ⟨[c]⟩)
        else .error .unicodeDecodeError

/-- MappedRecord construction for a group entry (the defaults dict built by
sync_ldap_groups for one entry). -/
def groupDefaults (s : SyncSettings) : Except PyErr Fields :=
  groupDefaultsLoop s s.GROUP_ATTRIBUTES []

/-- Group.objects.get_or_create lookup part: first group whose
GROUPNAME_FIELD value matches the given name case-insensitively. -/
def findGroupIexact (s : SyncSettings) (groups : List GroupRec) (name : String) :
    Option GroupRec :=
  groups.find? (fun g => lowerStr ((alookup g s.GROUPNAME_FIELD).getD "") == lowerStr name)

/-- One iteration of the sync_ldap_groups loop: skip non-dict attributes,
build defaults, look up the group case-insensitively, create it with the
defaults when absent; IntegrityError / DataError at get_or_create is
caught and logged (oracle gocGroupFails). -/
def processGroupEntry (s : SyncSettings) (env : SyncEnv) (groups : List GroupRec)
    (e : Entry) : List GroupRec × Option PyErr :=
  match e.2 with
  | none => (groups, none)
  | some _ =>
    match groupDefaults s with
    | .error err => (groups, some err)
    | .ok defaults =>
      match alookup defaults s.GROUPNAME_FIELD with
      | none => (groups, some .keyError)
      | some groupname =>
        match findGroupIexact s groups groupname with
        | some _ => (groups, none)
        | none =>
          if env.gocGroupFails groupname then (groups, none)
          else (groups ++ [defaults], none)

/-- The sync_ldap_groups loop over all directory group entries; stops at
the first uncaught exception, returning the store reached so far. -/
def syncGroupsLoop (s : SyncSettings) (env : SyncEnv) (groups : List GroupRec) :
    List Entry → List GroupRec × Option PyErr
  | [] => (groups, none)
  | e :: rest =>
    let r := processGroupEntry s env groups e
    match r.2 with
    | none => syncGroupsLoop s env r.1 rest
    | some err => (r.1, some err)

/-- Command.sync_ldap_groups. -/
def sync_ldap_groups (s : SyncSettings) (env : SyncEnv) (groups : List GroupRec)
    (ldap_groups : List Entry) : List GroupRec × Option PyErr :=
  syncGroupsLoop s env groups ldap_groups

/-- User defaults loop of sync_ldap_users: for each configured pair the
first raw value of the directory attribute is decoded as UTF-8; KeyError
(attribute absent) is caught to an empty string; IndexError on an empty
value list and UnicodeDecodeError propagate. -/
def userDefaultsLoop (attrs : LdapDict) : List (String × String) → Fields →
    Except PyErr Fields
  | [], defaults => .ok defaults
  | (ldap_name, field) :: rest, defaults =>
    match alookup attrs ldap_name with
    | none => userDefaultsLoop attrs rest (setField defaults field "")
    | some [] => .error .indexError
    | some (v :: _) =>
      match decodeUtf8 v with
      | none => .error .unicodeDecodeError
      | some str => userDefaultsLoop attrs rest (setField defaults field str)

/-- MappedRecord construction for a user entry. -/
def userDefaults (s : SyncSettings) (attrs : LdapDict) : Except PyErr Fields :=
  userDefaultsLoop attrs s.USER_ATTRIBUTES []

/-- State threaded through sync_ldap_users: the user store, the accumulating
confirmed-username set (ldap_usernames) and the trace of callback events. -/
structure UsersState where
  users : List UserRec
  confirmed : List String
  trace : List Event
  deriving DecidableEq, Repr

/-- Username of a stored user record (getattr on USERNAME_FIELD). -/
def usernameOf (s : SyncSettings) (u : UserRec) : String :=
  (alookup u.fields s.USERNAME_FIELD).getD ""

/-- The get_or_create lookup for users: position and record of the first
user whose USERNAME_FIELD matches case-insensitively. -/
def findUserIexactFrom (s : SyncSettings) (username : String) :
    List UserRec → Nat → Option (Nat × UserRec)
  | [], _ => none
  | u :: rest, i =>
    if lowerStr (usernameOf s u) == lowerStr username then some (i, u)
    else findUserIexactFrom s username rest (i + 1)

/-- Set insertion into the confirmed-username set. -/
def addConfirmed (confirmed : List String) (username : String) : List String :=
  if confirmed.contains username then confirmed else confirmed ++ [username]

/-- The existing-user update loop: compare every defaults field against the
current attribute (getattr with a None fallback), overwrite on difference
and track whether anything changed. -/
def applyDefaultsLoop (u : UserRec) (updated : Bool) : Fields → UserRec × Bool
  | [] => (u, updated)
  | (name, attr) :: rest =>
    match alookup u.fields name with
    | some cur =>
      if cur == attr then applyDefaultsLoop u updated rest
      else applyDefaultsLoop { u with fields := setField u.fields name attr } true rest
    | none => applyDefaultsLoop { u with fields := setField u.fields name attr } true rest

/-- Update of an existing user from the MappedRecord, with the updated flag. -/
def applyDefaults (u : UserRec) (defaults : Fields) : UserRec × Bool :=
  applyDefaultsLoop u false defaults

/-- Invocation of the configured user-sync callback chain, in list order;
each callback may mutate the in-memory user, and each invocation is
recorded with the flags it was passed. -/
def runUserCallbacks (env : SyncEnv) (attrs : LdapDict) (username : String)
    (created updated : Bool) : List String → UserRec → List Event →
    UserRec × List Event
  | [], u, tr => (u, tr)
  | path :: rest, u, tr =>
    runUserCallbacks env attrs username created updated rest
      (env.userCallback path u attrs created updated)
      (tr ++ [Event.userCb path username created updated])

/-- One iteration of the sync_ldap_users loop: skip non-dict attributes,
build the MappedRecord, lower-case the username for the iexact lookup,
get-or-create (IntegrityError / DataError caught and logged, oracle
gocUserFails), set an unusable password on create or apply the update loop
on an existing record, run the callback chain, save (IntegrityError caught
and logged, oracle saveFails), and record the username as confirmed when
removal callbacks are configured. -/
def processUserEntry (s : SyncSettings) (env : SyncEnv) (st : UsersState)
    (e : Entry) : UsersState × Option PyErr :=
  match e.2 with
  | none => (st, none)
  | some attrs =>
    match userDefaults s attrs with
    | .error err => (st, some err)
    | .ok defaults =>
      match alookup defaults s.USERNAME_FIELD with
      | none => (st, some .keyError)
      | some raw =>
        let username := lowerStr raw
        match findUserIexactFrom s username st.users 0 with
        | some (idx, u0) =>
          let u1 := (applyDefaults u0 defaults).1
          let updated := (applyDefaults u0 defaults).2
          let cb := runUserCallbacks env attrs username false updated s.USER_CALLBACKS u1 st.trace
          let users2 := if env.saveFails cb.1 then st.users else st.users.set idx cb.1
          let confirmed2 :=
            if s.REMOVED_USER_CALLBACKS.isEmpty then st.confirmed
            else addConfirmed st.confirmed username
          ({ users := users2, confirmed := confirmed2, trace := cb.2 }, none)
        | none =>
          if env.gocUserFails username then (st, none)
          else
            let newUser : UserRec := { fields := defaults, usable := true }
            let users1 := st.users ++ [newUser]
            let idx := st.users.length
            let u1 : UserRec := { newUser with usable := false }
            let cb := runUserCallbacks env attrs username true false s.USER_CALLBACKS u1 st.trace
            let users2 := if env.saveFails cb.1 then users1 else users1.set idx cb.1
            let confirmed2 :=
              if s.REMOVED_USER_CALLBACKS.isEmpty then st.confirmed
              else addConfirmed st.confirmed username
            ({ users := users2, confirmed := confirmed2, trace := cb.2 }, none)

/-- The sync_ldap_users loop over all directory user entries; stops at the
first uncaught exception, returning the state reached so far. -/
def syncUsersLoop (s : SyncSettings) (env : SyncEnv) (st : UsersState) :
    List Entry → UsersState × Option PyErr
  | [] => (st, none)
  | e :: rest =>
    let r := processUserEntry s env st e
    match r.2 with
    | none => syncUsersLoop s env r.1 rest
    | some err => (r.1, some err)

/-- The set of usernames currently stored locally (values_list on
USERNAME_FIELD), as a duplicate-free list. -/
def storeUsernames (s : SyncSettings) (users : List UserRec) : List String :=
  (users.map (usernameOf s)).dedup

/-- The local-only usernames: stored usernames minus the confirmed set. -/
def localOnlyUsernames (s : SyncSettings) (users : List UserRec)
    (confirmed : List String) : List String :=
  (storeUsernames s users).filter (fun n => !(confirmed.contains n))

/-- The objects.get fetch by exact username match used during removal. -/
def fetchExact (s : SyncSettings) (users : List UserRec) (n : String) :
    Option UserRec :=
  users.find? (fun u => usernameOf s u == n)

/-- Invocation of the removal callback chain for one local-only username,
in configured list order. -/
def runRemovalCallbacks (username : String) : List String → List Event → List Event
  | [], tr => tr
  | path :: rest, tr =>
    runRemovalCallbacks username rest (tr ++ [Event.removalCb path username])

/-- The removal loop body: fetch each local-only user by exact username
match (objects.get raises when no record matches) and run the removal
callback chain for it. -/
def removalGo (s : SyncSettings) (users : List UserRec) :
    List String → List Event → List Event × Option PyErr
  | [], tr => (tr, none)
  | n :: rest, tr =>
    match fetchExact s users n with
    | none => (tr, some .doesNotExist)
    | some _ => removalGo s users rest (runRemovalCallbacks n s.REMOVED_USER_CALLBACKS tr)

/-- The removal-detection phase of sync_ldap_users. -/
def removalPhase (s : SyncSettings) (users : List UserRec)
    (confirmed : List String) (tr : List Event) : List Event × Option PyErr :=
  removalGo s users (localOnlyUsernames s users confirmed) tr

/-- Command.sync_ldap_users: the entry loop followed, when removal
callbacks are configured, by removal detection. -/
def sync_ldap_users (s : SyncSettings) (env : SyncEnv) (st : UsersState)
    (ldap_users : List Entry) : UsersState × Option PyErr :=
  let r := syncUsersLoop s env st ldap_users
  match r.2 with
  | some err => (r.1, some err)
  | none =>
    if s.REMOVED_USER_CALLBACKS.isEmpty then (r.1, none)
    else
      let rp := removalPhase s r.1.users r.1.confirmed r.1.trace
      ({ r.1 with trace := rp.1 }, rp.2)

/-- Result of a whole run: final group store, final user-sync state, how
many times unbind ran, and the uncaught exception if one propagated. -/
structure HandleResult where
  groups : List GroupRec
  usersState : UsersState
  unbound : Nat
  error : Option PyErr
  deriving DecidableEq, Repr

/-- Command.handle: group sync when a group filter is configured, then
user sync when a user filter is configured, then ldap.unbind().  An
uncaught exception in a phase propagates immediately, skipping the rest of
the method body. -/
def handle (s : SyncSettings) (env : SyncEnv) (groups0 : List GroupRec)
    (users0 : List UserRec) (ldap_groups ldap_users : List Entry) : HandleResult :=
  let gres := if s.GROUP_FILTER then sync_ldap_groups s env groups0 ldap_groups
              else (groups0, none)
  match gres.2 with
  | some err => ⟨gres.1, ⟨users0, [], []⟩, 0, some err⟩
  | none =>
    let ures := if s.USER_FILTER then sync_ldap_users s env ⟨users0, [], []⟩ ldap_users
                else (⟨users0, [], []⟩, none)
    match ures.2 with
    | some err => ⟨gres.1, ures.1, 0, some err⟩
    | none => ⟨gres.1, ures.1, 1, none⟩

/-- The removal events emitted for a list of local-only usernames: for each
username, one event per configured removal callback, in configured order. -/
def removalEvents (paths : List String) : List String → List Event
  | [] => []
  | n :: rest => paths.map (fun p => Event.removalCb p n) ++ removalEvents paths rest

/-- Occurrence count of an event in a trace. -/
def countEv : List Event → Event → Nat
  | [], _ => 0
  | e :: rest, t => (if e = t then 1 else 0) + countEv rest t

/-- Occurrence count of a callback path in a configured chain. -/
def countStr : List String → String → Nat
  | [], _ => 0
  | e :: rest, t => (if e = t then 1 else 0) + countStr rest t

/-- Sample settings for a user sync with one mapped attribute and one
removal callback. -/
def uSettings : SyncSettings :=
  { GROUP_FILTER := false, USER_FILTER := true,
    GROUP_ATTRIBUTES := [], GROUPNAME_FIELD := "",
    USER_ATTRIBUTES := [("uid", "username")], USERNAME_FIELD := "username",
    USER_EXTRA_ATTRIBUTES := [], USER_CALLBACKS := [],
    REMOVED_USER_CALLBACKS := ["app.cb"] }

/-- Sample settings for a group sync mapping the cn attribute to the name
field. -/
def gSettings : SyncSettings :=
  { GROUP_FILTER := true, USER_FILTER := false,
    GROUP_ATTRIBUTES := [("cn", "name")], GROUPNAME_FIELD := "name",
    USER_ATTRIBUTES := [], USERNAME_FIELD := "", USER_EXTRA_ATTRIBUTES := [],
    USER_CALLBACKS := [], REMOVED_USER_CALLBACKS := [] }

/-- Benign external collaborators: identity callbacks and a store that
never raises. -/
def benignEnv : SyncEnv :=
  { userCallback := fun _ u _ _ _ => u, gocUserFails := fun _ => false,
    gocGroupFails := fun _ => false, saveFails := fun _ => false }

/-- Environment whose store raises IntegrityError at every get_or_create
for users. -/
def gocFailEnv : SyncEnv :=
  { benignEnv with gocUserFails := fun _ => true }

/-- Environment whose store raises IntegrityError at every user save. -/
def saveFailEnv : SyncEnv :=
  { benignEnv with saveFails := fun _ => true }

theorem alookup_setField_self (xs : Fields) (k v : String) :
    alookup (setField xs k v) k = some v := by
  induction xs with
  | nil => simp [setField, alookup]
  | cons hd tl ih =>
    obtain ⟨k', v'⟩ := hd
    by_cases h : k' = k
    · simp [setField, alookup, h]
    · simp [setField, alookup, h, ih]

theorem alookup_setField_ne (xs : Fields) (k v f : String) (h : f ≠ k) :
    alookup (setField xs k v) f = alookup xs f := by
  induction xs with
  | nil => simp [setField, alookup, Ne.symm h]
  | cons hd tl ih =>
    obtain ⟨k', v'⟩ := hd
    by_cases hk : k' = k
    · subst hk
      simp [setField, alookup, Ne.symm h, h]
    · by_cases hf : k' = f
      · subst hf
        simp [setField, alookup, hk]
      · simp [setField, alookup, hk, hf, ih]

theorem mem_keysOf_setField (xs : Fields) (k v a : String) :
    a ∈ keysOf (setField xs k v) ↔ a ∈ keysOf xs ∨ a = k := by
  induction xs with
  | nil => simp [setField, keysOf]
  | cons hd tl ih =>
    obtain ⟨k', v'⟩ := hd
    by_cases h : k' = k
    · subst h
      simp only [setField, beq_self_eq_true, if_true, keysOf, List.map_cons]
      simp [keysOf] at ih ⊢
      tauto
    · simp only [setField, beq_iff_eq, h, if_false, keysOf, List.map_cons]
      simp [keysOf] at ih ⊢
      tauto

theorem nodup_keysOf_setField (xs : Fields) (k v : String)
    (h : (keysOf xs).Nodup) : (keysOf (setField xs k v)).Nodup := by
  induction xs with
  | nil => simp [setField, keysOf]
  | cons hd tl ih =>
    obtain ⟨k', v'⟩ := hd
    simp only [keysOf, List.map_cons, List.nodup_cons] at h
    by_cases hk : k' = k
    · subst hk
      simp only [setField, beq_self_eq_true, if_true, keysOf, List.map_cons,
        List.nodup_cons]
      exact ⟨h.1, h.2⟩
    · simp only [setField, beq_iff_eq, hk, if_false, keysOf, List.map_cons,
      List.nodup_cons]
      refine ⟨fun hmem => ?_, ih h.2⟩
      rcases (mem_keysOf_setField tl k v k').1 hmem with hin | heq
      · exact h.1 hin
      · exact hk heq

theorem userDefaultsLoop_ok_nodup (attrs : LdapDict) (pairs : List (String × String))
    (acc : Fields) (d : Fields) (hacc : (keysOf acc).Nodup)
    (h : userDefaultsLoop attrs pairs acc = .ok d) : (keysOf d).Nodup := by
  induction pairs generalizing acc with
  | nil =>
    simp only [userDefaultsLoop, Except.ok.injEq] at h
    exact h ▸ hacc
  | cons hd tl ih =>
    obtain ⟨ln, f⟩ := hd
    simp only [userDefaultsLoop] at h
    cases hl : alookup attrs ln with
    | none =>
      simp only [hl] at h
      exact ih (setField acc f "") (nodup_keysOf_setField acc f "" hacc) h
    | some vals =>
      simp only [hl] at h
      cases vals with
      | nil => exact absurd h (by simp)
      | cons v vs =>
        cases hdec : decodeUtf8 v with
        | none => simp only [hdec] at h; exact absurd h (by simp)
        | some str =>
          simp only [hdec] at h
          exact ih (setField acc f str) (nodup_keysOf_setField acc f str hacc) h

theorem userDefaults_nodup (s : SyncSettings) (attrs : LdapDict) (d : Fields)
    (h : userDefaults s attrs = .ok d) : (keysOf d).Nodup :=
  userDefaultsLoop_ok_nodup attrs s.USER_ATTRIBUTES [] d (by simp [keysOf]) h

theorem userDefaultsLoop_lookup_not_set (attrs : LdapDict)
    (pairs : List (String × String)) (acc : Fields) (d : Fields) (f : String)
    (hnot : ∀ p ∈ pairs, p.2 ≠ f)
    (h : userDefaultsLoop attrs pairs acc = .ok d) : alookup d f = alookup acc f := by
  induction pairs generalizing acc with
  | nil =>
    simp only [userDefaultsLoop, Except.ok.injEq] at h
    exact h ▸ rfl
  | cons hd tl ih =>
    obtain ⟨ln, g⟩ := hd
    have hg : g ≠ f := hnot (ln, g) (by simp)
    have htl : ∀ p ∈ tl, p.2 ≠ f := fun p hp => hnot p (by simp [hp])
    simp only [userDefaultsLoop] at h
    cases hl : alookup attrs ln with
    | none =>
      simp only [hl] at h
      rw [ih (setField acc g "") htl h, alookup_setField_ne acc g "" f (Ne.symm hg)]
    | some vals =>
      simp only [hl] at h
      cases vals with
      | nil => exact absurd h (by simp)
      | cons v vs =>
        cases hdec : decodeUtf8 v with
        | none => simp only [hdec] at h; exact absurd h (by simp)
        | some str =>
          simp only [hdec] at h
          rw [ih (setField acc g str) htl h, alookup_setField_ne acc g str f (Ne.symm hg)]

theorem userDefaultsLoop_absent (attrs : LdapDict) (pairs : List (String × String))
    (acc : Fields) (d : Fields) (ln f : String)
    (hmem : (ln, f) ∈ pairs) (habs : alookup attrs ln = none)
    (hnd : (pairs.map Prod.snd).Nodup)
    (h : userDefaultsLoop attrs pairs acc = .ok d) : alookup d f = some "" := by
  induction pairs generalizing acc with
  | nil => exact absurd hmem (by simp)
  | cons hd tl ih =>
    obtain ⟨ln', g⟩ := hd
    simp only [List.map_cons, List.nodup_cons] at hnd
    rcases List.mem_cons.1 hmem with heq | htl
    · rw [Prod.mk.injEq] at heq
      obtain ⟨h1, h2⟩ := heq
      subst h1; subst h2
      simp only [userDefaultsLoop, habs] at h
      have hnot : ∀ p ∈ tl, p.2 ≠ f := by
        intro p hp hpf
        exact hnd.1 (hpf ▸ List.mem_map_of_mem Prod.snd hp)
      rw [userDefaultsLoop_lookup_not_set attrs tl (setField acc f "") d f hnot h]
      exact alookup_setField_self acc f ""
    · simp only [userDefaultsLoop] at h
      cases hl : alookup attrs ln' with
      | none =>
        simp only [hl] at h
        exact ih (setField acc g "") htl hnd.2 h
      | some vals =>
        simp only [hl] at h
        cases vals with
        | nil => exact absurd h (by simp)
        | cons v vs =>
          cases hdec : decodeUtf8 v with
          | none => simp only [hdec] at h; exact absurd h (by simp)
          | some str =>
            simp only [hdec] at h
            exact ih (setField acc g str) htl hnd.2 h

theorem userDefaultsLoop_decode_error (attrs : LdapDict)
    (pairs : List (String × String)) (ln f : String) (v : Bytes) (vs : List Bytes)
    (hmem : (ln, f) ∈ pairs) (hval : alookup attrs ln = some (v :: vs))
    (hdec : decodeUtf8 v = none) (acc : Fields) :
    ∃ err, userDefaultsLoop attrs pairs acc = .error err := by
  induction pairs generalizing acc with
  | nil => exact absurd hmem (by simp)
  | cons hd tl ih =>
    obtain ⟨ln', g⟩ := hd
    rcases List.mem_cons.1 hmem with heq | htl
    · rw [Prod.mk.injEq] at heq
      obtain ⟨h1, h2⟩ := heq
      subst h1; subst h2
      exact ⟨.unicodeDecodeError, by simp [userDefaultsLoop, hval, hdec]⟩
    · simp only [userDefaultsLoop]
      cases hl : alookup attrs ln' with
      | none => simpa only [hl] using ih htl (setField acc g "")
      | some vals =>
        cases vals with
        | nil => exact ⟨.indexError, by simp [hl]⟩
        | cons w ws =>
          cases hdw : decodeUtf8 w with
          | none => exact ⟨.unicodeDecodeError, by simp [hl, hdw]⟩
          | some str => simpa only [hl, hdw] using ih htl (setField acc g str)

theorem applyDefaultsLoop_lookup_not_touched (u : UserRec) (b : Bool) (ds : Fields)
    (f : String) (hnot : ∀ p ∈ ds, p.1 ≠ f) :
    alookup (applyDefaultsLoop u b ds).1.fields f = alookup u.fields f := by
  induction ds generalizing u b with
  | nil => rfl
  | cons hd tl ih =>
    obtain ⟨g, w⟩ := hd
    have hg : g ≠ f := hnot (g, w) (by simp)
    have htl : ∀ p ∈ tl, p.1 ≠ f := fun p hp => hnot p (by simp [hp])
    simp only [applyDefaultsLoop]
    cases hl : alookup u.fields g with
    | some cur =>
      by_cases hcw : cur = w
      · simp only [hcw, beq_self_eq_true, if_true]
        exact ih u b htl
      · simp only [beq_iff_eq, hcw, if_false]
        rw [ih _ true htl]
        exact alookup_setField_ne u.fields g w f (Ne.symm hg)
    | none =>
      rw [ih _ true htl]
      exact alookup_setField_ne u.fields g w f (Ne.symm hg)

theorem applyDefaultsLoop_sets (u : UserRec) (b : Bool) (ds : Fields)
    (f v : String) (hnd : (keysOf ds).Nodup) (hv : alookup ds f = some v) :
    alookup (applyDefaultsLoop u b ds).1.fields f = some v := by
  induction ds generalizing u b with
  | nil => exact absurd hv (by simp [alookup])
  | cons hd tl ih =>
    obtain ⟨g, w⟩ := hd
    simp only [keysOf, List.map_cons, List.nodup_cons] at hnd
    by_cases hgf : g = f
    · subst hgf
      simp only [alookup, beq_self_eq_true, if_true, Option.some.injEq] at hv
      subst hv
      have hnot : ∀ p ∈ tl, p.1 ≠ g := by
        intro p hp hpg
        exact hnd.1 (hpg ▸ List.mem_map_of_mem Prod.fst hp)
      simp only [applyDefaultsLoop]
      cases hl : alookup u.fields g with
      | some cur =>
        by_cases hcw : cur = w
        · simp only [hcw, beq_self_eq_true, if_true]
          rw [applyDefaultsLoop_lookup_not_touched u b tl g hnot, hl, hcw]
        · simp only [beq_iff_eq, hcw, if_false]
          rw [applyDefaultsLoop_lookup_not_touched _ true tl g hnot]
          exact alookup_setField_self u.fields g w
      | none =>
        rw [applyDefaultsLoop_lookup_not_touched _ true tl g hnot]
        exact alookup_setField_self u.fields g w
    · simp only [alookup, beq_iff_eq, hgf, if_false] at hv
      simp only [applyDefaultsLoop]
      cases hl : alookup u.fields g with
      | some cur =>
        by_cases hcw : cur = w
        · simp only [hcw, beq_self_eq_true, if_true]
          exact ih u b hnd.2 hv
        · simp only [beq_iff_eq, hcw, if_false]
          exact ih _ true hnd.2 hv
      | none => exact ih _ true hnd.2 hv

theorem applyDefaultsLoop_flag_true (u : UserRec) (ds : Fields) :
    (applyDefaultsLoop u true ds).2 = true := by
  induction ds generalizing u with
  | nil => rfl
  | cons hd tl ih =>
    obtain ⟨g, w⟩ := hd
    simp only [applyDefaultsLoop]
    cases alookup u.fields g with
    | some cur =>
      by_cases hcw : cur = w
      · simp only [hcw, beq_self_eq_true, if_true]; exact ih u
      · simp only [beq_iff_eq, hcw, if_false]; exact ih _
    | none => exact ih _

theorem applyDefaultsLoop_flag (u : UserRec) (b : Bool) (ds : Fields) :
    (applyDefaultsLoop u b ds).2 =
      (b || ds.any (fun p => !(alookup u.fields p.1 == some p.2))) := by
  induction ds generalizing u b with
  | nil => simp [applyDefaultsLoop]
  | cons hd tl ih =>
    obtain ⟨g, w⟩ := hd
    simp only [applyDefaultsLoop, List.any_cons]
    cases hl : alookup u.fields g with
    | some cur =>
      by_cases hcw : cur = w
      · subst hcw
        simp only [beq_self_eq_true, if_true, hl]
        rw [ih u b]
        simp
      · simp only [beq_iff_eq, hcw, if_false]
        rw [applyDefaultsLoop_flag_true]
        simp [hl, hcw]
    | none =>
      rw [applyDefaultsLoop_flag_true]
      simp [hl]

theorem runUserCallbacks_trace (env : SyncEnv) (attrs : LdapDict) (username : String)
    (created updated : Bool) (paths : List String) (u : UserRec) (tr : List Event) :
    (runUserCallbacks env attrs username created updated paths u tr).2 =
      tr ++ paths.map (fun p => Event.userCb p username created updated) := by
  induction paths generalizing u tr with
  | nil => simp [runUserCallbacks]
  | cons p rest ih =>
    simp only [runUserCallbacks, List.map_cons]
    rw [ih]
    simp

theorem runRemovalCallbacks_trace (username : String) (paths : List String)
    (tr : List Event) :
    runRemovalCallbacks username paths tr =
      tr ++ paths.map (fun p => Event.removalCb p username) := by
  induction paths generalizing tr with
  | nil => simp [runRemovalCallbacks]
  | cons p rest ih =>
    simp only [runRemovalCallbacks, List.map_cons]
    rw [ih]
    simp

theorem set_length_append {α : Type} (l : List α) (a b : α) :
    (l ++ [a]).set l.length b = l ++ [b] := by
  induction l with
  | nil => rfl
  | cons hd tl ih => simp [List.set, ih]

theorem contains_addConfirmed_self (c : List String) (n : String) :
    (addConfirmed c n).contains n = true := by
  by_cases h : n ∈ c <;> simp [addConfirmed, h]

theorem contains_addConfirmed_mono (c : List String) (n m : String)
    (h : c.contains m = true) : (addConfirmed c n).contains m = true := by
  have h' : m ∈ c := by simpa using h
  by_cases hc : n ∈ c <;> simp [addConfirmed, hc, h']

theorem processUserEntry_confirmed_mono (s : SyncSettings) (env : SyncEnv)
    (st : UsersState) (e : Entry) (n : String)
    (h : st.confirmed.contains n = true) :
    (processUserEntry s env st e).1.confirmed.contains n = true := by
  unfold processUserEntry
  split
  · exact h
  · split
    · exact h
    · split
      · exact h
      · next raw heq =>
        cases hf : findUserIexactFrom s (lowerStr raw) st.users 0 with
        | some pr =>
          obtain ⟨idx, u0⟩ := pr
          by_cases hrm : s.REMOVED_USER_CALLBACKS.isEmpty
          · simpa [hf, hrm] using h
          · simpa [hf, hrm] using contains_addConfirmed_mono st.confirmed (lowerStr raw) n h
        | none =>
          by_cases hgoc : env.gocUserFails (lowerStr raw)
          · simpa [hf, hgoc] using h
          · by_cases hrm : s.REMOVED_USER_CALLBACKS.isEmpty
            · simpa [hf, hgoc, hrm] using h
            · simpa [hf, hgoc, hrm] using
                contains_addConfirmed_mono st.confirmed (lowerStr raw) n h

theorem syncUsersLoop_confirmed_mono (s : SyncSettings) (env : SyncEnv)
    (es : List Entry) (st : UsersState) (n : String)
    (h : st.confirmed.contains n = true) :
    (syncUsersLoop s env st es).1.confirmed.contains n = true := by
  induction es generalizing st with
  | nil => exact h
  | cons e rest ih =>
    simp only [syncUsersLoop]
    cases hr : (processUserEntry s env st e).2 with
    | none =>
      simpa using ih _ (processUserEntry_confirmed_mono s env st e n h)
    | some err =>
      simpa using processUserEntry_confirmed_mono s env st e n h

theorem sync_ldap_users_confirmed (s : SyncSettings) (env : SyncEnv)
    (st : UsersState) (es : List Entry) :
    (sync_ldap_users s env st es).1.confirmed =
      (syncUsersLoop s env st es).1.confirmed := by
  simp only [sync_ldap_users]
  cases hr : (syncUsersLoop s env st es).2 with
  | some err => simp
  | none => by_cases hrm : s.REMOVED_USER_CALLBACKS.isEmpty <;> simp [hrm]

theorem findGroupIexact_append_some (s : SyncSettings) (g1 g2 : List GroupRec)
    (name : String) (r : GroupRec) (h : findGroupIexact s g1 name = some r) :
    findGroupIexact s (g1 ++ g2) name = some r := by
  unfold findGroupIexact at h ⊢
  induction g1 with
  | nil => exact absurd h (by simp)
  | cons hd tl ih =>
    simp only [List.find?_cons] at h ⊢
    cases hc : (lowerStr ((alookup hd s.GROUPNAME_FIELD).getD "") == lowerStr name) with
    | true => rw [hc] at h; simpa [hc] using h
    | false => rw [hc] at h; simpa [hc] using ih h

theorem findGroupIexact_append_none (s : SyncSettings) (g1 g2 : List GroupRec)
    (name : String) (h : findGroupIexact s g1 name = none) :
    findGroupIexact s (g1 ++ g2) name = findGroupIexact s g2 name := by
  unfold findGroupIexact at h ⊢
  induction g1 with
  | nil => simp
  | cons hd tl ih =>
    simp only [List.find?_cons] at h ⊢
    cases hc : (lowerStr ((alookup hd s.GROUPNAME_FIELD).getD "") == lowerStr name) with
    | true => rw [hc] at h; exact absurd h (by simp)
    | false => rw [hc] at h; simpa [hc] using ih h

theorem findGroupIexact_cons_self (s : SyncSettings) (rest : List GroupRec)
    (defaults : Fields) (name : String)
    (h : alookup defaults s.GROUPNAME_FIELD = some name) :
    findGroupIexact s (defaults :: rest) name = some defaults := by
  unfold findGroupIexact
  simp [List.find?_cons, h]

theorem processGroupEntry_extends (s : SyncSettings) (env : SyncEnv)
    (g : List GroupRec) (e : Entry) :
    ∃ ext, (processGroupEntry s env g e).1 = g ++ ext := by
  obtain ⟨cn, o⟩ := e
  cases o with
  | none => exact ⟨[], by simp [processGroupEntry]⟩
  | some attrs =>
    simp only [processGroupEntry]
    cases hd : groupDefaults s with
    | error err => exact ⟨[], by simp [hd]⟩
    | ok defaults =>
      cases hn : alookup defaults s.GROUPNAME_FIELD with
      | none => exact ⟨[], by simp [hd, hn]⟩
      | some groupname =>
        cases hfind : findGroupIexact s g groupname with
        | some grp => exact ⟨[], by simp [hd, hn, hfind]⟩
        | none =>
          by_cases hgoc : env.gocGroupFails groupname
          · exact ⟨[], by simp [hd, hn, hfind, hgoc]⟩
          · exact ⟨[defaults], by simp [hd, hn, hfind, hgoc]⟩

theorem syncGroupsLoop_extends (s : SyncSettings) (env : SyncEnv)
    (g : List GroupRec) (es : List Entry) :
    ∃ ext, (syncGroupsLoop s env g es).1 = g ++ ext := by
  induction es generalizing g with
  | nil => exact ⟨[], by simp [syncGroupsLoop]⟩
  | cons e rest ih =>
    simp only [syncGroupsLoop]
    obtain ⟨ext1, h1⟩ := processGroupEntry_extends s env g e
    cases hr : (processGroupEntry s env g e).2 with
    | none =>
      obtain ⟨ext2, h2⟩ := ih (processGroupEntry s env g e).1
      rw [h1] at h2
      refine ⟨ext1 ++ ext2, ?_⟩
      show (syncGroupsLoop s env (processGroupEntry s env g e).1 rest).1 =
        g ++ (ext1 ++ ext2)
      rw [h1, h2, List.append_assoc]
    | some err => exact ⟨ext1, by simpa using h1⟩

theorem processGroupEntry_stable (s : SyncSettings) (env : SyncEnv)
    (g g' : List GroupRec) (e : Entry) (r : Option PyErr)
    (h : processGroupEntry s env g e = (g', r)) (ext : List GroupRec) :
    processGroupEntry s env (g' ++ ext) e = (g' ++ ext, r) := by
  obtain ⟨cn, o⟩ := e
  cases o with
  | none =>
    simp only [processGroupEntry] at h
    injection h with h1 h2
    subst h1; subst h2
    rfl
  | some attrs =>
    simp only [processGroupEntry] at h ⊢
    cases hd : groupDefaults s with
    | error err =>
      simp only [hd] at h ⊢
      injection h with h1 h2
      subst h1; subst h2
      rfl
    | ok defaults =>
      simp only [hd] at h ⊢
      cases hn : alookup defaults s.GROUPNAME_FIELD with
      | none =>
        simp only [hn] at h ⊢
        injection h with h1 h2
        subst h1; subst h2
        rfl
      | some groupname =>
        simp only [hn] at h ⊢
        cases hfind : findGroupIexact s g groupname with
        | some grp =>
          simp only [hfind] at h
          injection h with h1 h2
          subst h1; subst h2
          rw [findGroupIexact_append_some s g ext groupname grp hfind]
        | none =>
          simp only [hfind] at h
          by_cases hgoc : env.gocGroupFails groupname
          · simp only [hgoc, if_true] at h
            injection h with h1 h2
            subst h1; subst h2
            cases hfind2 : findGroupIexact s (g ++ ext) groupname with
            | some grp2 => simp [hfind2]
            | none => simp [hfind2, hgoc]
          · simp only [hgoc, if_false] at h
            injection h with h1 h2
            subst h1; subst h2
            have hfull : findGroupIexact s (g ++ defaults :: ext) groupname
                = some defaults := by
              rw [findGroupIexact_append_none s g (defaults :: ext) groupname hfind]
              exact findGroupIexact_cons_self s ext defaults groupname hn
            simp [hfull]

theorem group_sync_second_run (s : SyncSettings) (env : SyncEnv)
    (g0 : List GroupRec) (es : List Entry) :
    syncGroupsLoop s env (syncGroupsLoop s env g0 es).1 es =
      syncGroupsLoop s env g0 es := by
  induction es generalizing g0 with
  | nil => simp [syncGroupsLoop]
  | cons e rest ih =>
    simp only [syncGroupsLoop]
    cases hr : (processGroupEntry s env g0 e).2 with
    | some err =>
      have hstable := processGroupEntry_stable s env g0
        (processGroupEntry s env g0 e).1 e (some err)
        (by rw [← hr]) []
      rw [List.append_nil] at hstable
      simp only [hstable]
    | none =>
      have hext := syncGroupsLoop_extends s env (processGroupEntry s env g0 e).1 rest
      obtain ⟨ext, hx⟩ := hext
      have hstable := processGroupEntry_stable s env g0
        (processGroupEntry s env g0 e).1 e none (by rw [← hr]) ext
      rw [← hx] at hstable
      simp only [hstable]
      exact ih (processGroupEntry s env g0 e).1

theorem countEv_append (a b : List Event) (t : Event) :
    countEv (a ++ b) t = countEv a t + countEv b t := by
  induction a with
  | nil => simp [countEv]
  | cons e rest ih => simp [countEv, ih, Nat.add_assoc]

theorem countEv_map_removalCb (paths : List String) (m p n : String) :
    countEv (paths.map (fun q => Event.removalCb q m)) (Event.removalCb p n) =
      if m = n then countStr paths p else 0 := by
  induction paths with
  | nil => simp [countEv, countStr]
  | cons q rest ih =>
    by_cases hmn : m = n
    · subst hmn
      simp only [List.map_cons, countEv, countStr, ih, if_true, Event.removalCb.injEq]
      by_cases hqp : q = p <;> simp [hqp]
    · simp only [List.map_cons, countEv, ih, hmn, if_false, Event.removalCb.injEq]
      simp [hmn]

theorem countEv_removalEvents (paths : List String) (names : List String)
    (p n : String) (hnd : names.Nodup) :
    countEv (removalEvents paths names) (Event.removalCb p n) =
      if n ∈ names then countStr paths p else 0 := by
  induction names with
  | nil => simp [removalEvents, countEv]
  | cons m rest ih =>
    simp only [List.nodup_cons] at hnd
    simp only [removalEvents, countEv_append, countEv_map_removalCb, ih hnd.2]
    by_cases hnm : m = n
    · subst hnm
      simp [hnd.1]
    · by_cases hmem : n ∈ rest <;> simp [hnm, hmem, Ne.symm hnm]

theorem removalGo_trace (s : SyncSettings) (users : List UserRec)
    (names : List String) (tr : List Event)
    (hfe : ∀ n ∈ names, (fetchExact s users n).isSome = true) :
    removalGo s users names tr =
      (tr ++ removalEvents s.REMOVED_USER_CALLBACKS names, none) := by
  induction names generalizing tr with
  | nil => simp [removalGo, removalEvents]
  | cons n rest ih =>
    have hn := hfe n (by simp)
    cases hfetch : fetchExact s users n with
    | none => rw [hfetch] at hn; exact absurd hn (by simp)
    | some u =>
      simp only [removalGo, hfetch, runRemovalCallbacks_trace]
      rw [ih _ (fun m hm => hfe m (by simp [hm]))]
      simp [removalEvents, List.append_assoc]

theorem fetchExact_of_mem (s : SyncSettings) (users : List UserRec) (n : String)
    (h : n ∈ users.map (usernameOf s)) :
    ∃ u, fetchExact s users n = some u ∧ usernameOf s u = n := by
  induction users with
  | nil => exact absurd h (by simp)
  | cons u rest ih =>
    by_cases hu : usernameOf s u = n
    · exact ⟨u, by simp [fetchExact, List.find?_cons, hu], hu⟩
    · have h' : n ∈ rest.map (usernameOf s) := by
        simp only [List.map_cons, List.mem_cons] at h
        rcases h with heq | hmem
        · exact absurd heq.symm hu
        · exact hmem
      obtain ⟨w, hw1, hw2⟩ := ih h'
      refine ⟨w, ?_, hw2⟩
      simpa [fetchExact, List.find?_cons, hu] using hw1

theorem mem_localOnly_iff (s : SyncSettings) (users : List UserRec)
    (confirmed : List String) (n : String) :
    n ∈ localOnlyUsernames s users confirmed ↔
      n ∈ users.map (usernameOf s) ∧ ¬(n ∈ confirmed) := by
  simp [localOnlyUsernames, storeUsernames, List.mem_filter, List.mem_dedup]

theorem nodup_localOnly (s : SyncSettings) (users : List UserRec)
    (confirmed : List String) : (localOnlyUsernames s users confirmed).Nodup :=
  (List.nodup_dedup _).filter _

theorem removalPhase_trace (s : SyncSettings) (users : List UserRec)
    (confirmed : List String) (tr : List Event) :
    removalPhase s users confirmed tr =
      (tr ++ removalEvents s.REMOVED_USER_CALLBACKS
        (localOnlyUsernames s users confirmed), none) := by
  unfold removalPhase
  apply removalGo_trace
  intro n hn
  obtain ⟨u, hu, _⟩ :=
    fetchExact_of_mem s users n ((mem_localOnly_iff s users confirmed n).1 hn).1
  simp [hu]

/-- Sample settings for a user sync with two mapped attributes and one
user-sync callback. -/
def u2Settings : SyncSettings :=
  { GROUP_FILTER := false, USER_FILTER := true,
    GROUP_ATTRIBUTES := [], GROUPNAME_FIELD := "",
    USER_ATTRIBUTES := [("uid", "username"), ("mail", "email")],
    USERNAME_FIELD := "username",
    USER_EXTRA_ATTRIBUTES := [], USER_CALLBACKS := ["app.sync"],
    REMOVED_USER_CALLBACKS := [] }

/-- Sample pre-existing local user with a stale email field. -/
def daveUser : UserRec :=
  { fields := [("username", "dave"), ("email", "old")], usable := true }

/-- C8: running group sync a second time with an unchanged directory
produces zero additional creates and leaves every group from the first run
unchanged (existing groups are never updated, so the whole store and
outcome are identical). -/
theorem group_sync_idempotent (s : SyncSettings) (env : SyncEnv)
    (g0 : List GroupRec) (es : List Entry) :
    sync_ldap_groups s env (sync_ldap_groups s env g0 es).1 es =
      sync_ldap_groups s env g0 es :=
  group_sync_second_run s env g0 es

/-- C2 amended: handle invokes unbind exactly once when both phases finish
without an uncaught exception, and does not invoke it at all when a phase
raises (there is no try/finally around the phases). -/
theorem handle_unbind_iff_no_error (s : SyncSettings) (env : SyncEnv)
    (g0 : List GroupRec) (u0 : List UserRec) (lg lu : List Entry) :
    (handle s env g0 u0 lg lu).unbound =
      if (handle s env g0 u0 lg lu).error = none then 1 else 0 := by
  by_cases hgf : s.GROUP_FILTER
  · cases hge : (sync_ldap_groups s env g0 lg).2 with
    | some err => simp [handle, hgf, hge]
    | none =>
      by_cases huf : s.USER_FILTER
      · cases hue : (sync_ldap_users s env ⟨u0, [], []⟩ lu).2 with
        | some err => simp [handle, hgf, hge, huf, hue]
        | none => simp [handle, hgf, hge, huf, hue]
      · simp [handle, hgf, hge, huf]
  · by_cases huf : s.USER_FILTER
    · cases hue : (sync_ldap_users s env ⟨u0, [], []⟩ lu).2 with
      | some err => simp [handle, hgf, huf, hue]
      | none => simp [handle, hgf, huf, hue]
    · simp [handle, hgf, huf]

/-- Claim C2 counterexample: a run whose user-sync phase raises an uncaught
UnicodeDecodeError ends without unbind ever being invoked, so the
connection is not released on this exit path. -/
theorem handle_error_skips_unbind_cex :
    (handle uSettings benignEnv [] [] []
        [("cn=X", some [("uid", [[255]])])]).error =
      some PyErr.unicodeDecodeError ∧
    (handle uSettings benignEnv [] [] []
        [("cn=X", some [("uid", [[255]])])]).unbound = 0 := by
  exact ⟨rfl, rfl⟩

/-- C6: removal detection emits, after the trace so far, exactly one
removal-callback event per configured callback, in configured order, for
each username in (stored usernames) minus (confirmed set) and for no other
username; each such username is fetched by exact match to a record bearing
exactly that username. -/
theorem removal_difference_callbacks (s : SyncSettings) (users : List UserRec)
    (confirmed : List String) (tr : List Event) :
    removalPhase s users confirmed tr =
      (tr ++ removalEvents s.REMOVED_USER_CALLBACKS
        (localOnlyUsernames s users confirmed), none) ∧
    (∀ p n, countEv (removalEvents s.REMOVED_USER_CALLBACKS
        (localOnlyUsernames s users confirmed)) (Event.removalCb p n) =
      if n ∈ users.map (usernameOf s) ∧ ¬(n ∈ confirmed) then
        countStr s.REMOVED_USER_CALLBACKS p
      else 0) ∧
    (∀ n ∈ localOnlyUsernames s users confirmed,
      ∃ u, fetchExact s users n = some u ∧ usernameOf s u = n) := by
  refine ⟨removalPhase_trace s users confirmed tr, ?_, ?_⟩
  · intro p n
    rw [countEv_removalEvents _ _ p n (nodup_localOnly s users confirmed)]
    by_cases h : n ∈ localOnlyUsernames s users confirmed
    · rw [if_pos h, if_pos ((mem_localOnly_iff s users confirmed n).1 h)]
    · rw [if_neg h, if_neg (fun hc => h ((mem_localOnly_iff s users confirmed n).2 hc))]
  · intro n hn
    exact fetchExact_of_mem s users n ((mem_localOnly_iff s users confirmed n).1 hn).1

/-- Claim C6 witness: with local usernames a, b, c and confirmed set a, b,
the single configured removal callback runs exactly once, for c. -/
theorem removal_difference_callbacks_witness :
    removalPhase uSettings
      [⟨[("username", "a")], true⟩, ⟨[("username", "b")], true⟩,
        ⟨[("username", "c")], true⟩] ["a", "b"] [] =
      ([Event.removalCb "app.cb" "c"], none) := by
  have h := (removal_difference_callbacks uSettings
    [⟨[("username", "a")], true⟩, ⟨[("username", "b")], true⟩,
      ⟨[("username", "c")], true⟩] ["a", "b"] []).1
  rw [h]
  decide

/-- C1: the group MappedRecord is built from the configuration table, not
from the directory entry: for the entry cn=Admins with attribute cn having
first raw value Admins, the created group's name is the first character of
the configured field name (n), not the decoded directory value (Admins).
The claim's described behaviour is the documented intent; the code indexes
settings.GROUP_ATTRIBUTES where the parallel user loop indexes
ldap_attributes, and its except-KeyError arm is unreachable. -/
theorem group_defaults_ignore_directory :
    sync_ldap_groups gSettings benignEnv []
        [("cn=Admins", some [("cn", [[65, 100, 109, 105, 110, 115]])])] =
      ([[("name", "n")]], none) ∧ ("n" : String) ≠ "Admins" := by
  exact ⟨rfl, by decide⟩

/-- C10: a directory username with an upper-case character (JDoe) is
created with its original casing while the confirmed set holds only the
lower-cased form (jdoe); the exact set difference then classifies the
just-created user as local-only and the removal callback fires for it in
the same run. -/
theorem created_casing_triggers_removal :
    sync_ldap_users uSettings benignEnv ⟨[], [], []⟩
        [("cn=JDoe", some [("uid", [[74, 68, 111, 101]])])] =
      (⟨[⟨[("username", "JDoe")], false⟩], ["jdoe"],
        [Event.removalCb "app.cb" "JDoe"]⟩, none) := by
  decide

/-- Claim C3 counterexample: after syncing the directory entry whose
decoded username is Alice, no local user stores the lower-cased username
alice, although the store is non-empty (the created record keeps the
original casing). -/
theorem created_username_keeps_casing_cex :
    ((sync_ldap_users uSettings benignEnv ⟨[], [], []⟩
        [("cn=Alice", some [("uid", [[65, 108, 105, 99, 101]])])]).1.users.all
      (fun u => !(alookup u.fields "username" == some "alice"))) = true ∧
    (sync_ldap_users uSettings benignEnv ⟨[], [], []⟩
        [("cn=Alice", some [("uid", [[65, 108, 105, 99, 101]])])]).1.users ≠ [] := by
  exact ⟨by decide, by decide⟩

/-- Claim C4 counterexample: a dict-shaped user entry whose get-or-create
step raises IntegrityError is not added to the confirmed set, although the
directory query confirmed it present. -/
theorem goc_failure_excludes_confirmed_cex :
    (sync_ldap_users uSettings gocFailEnv ⟨[], [], []⟩
        [("cn=Bob", some [("uid", [[66, 111, 98]])])]).1.confirmed.contains
      "bob" = false ∧
    (sync_ldap_users uSettings gocFailEnv ⟨[], [], []⟩
        [("cn=Bob", some [("uid", [[66, 111, 98]])])]).2 = none := by
  exact ⟨by decide, by decide⟩

/-- Claim C5 counterexample: a raw attribute value that is not valid UTF-8
makes the whole user sync raise (the UnicodeDecodeError propagates out of
sync_ldap_users); the field is not defaulted to an empty string. -/
theorem decode_failure_propagates_cex :
    sync_ldap_users uSettings benignEnv ⟨[], [], []⟩
        [("cn=X", some [("uid", [[255]])])] =
      (⟨[], [], []⟩, some PyErr.unicodeDecodeError) := by
  decide

/-- C3 amended: the username is lower-cased for the get-or-create lookup
and for the confirmed set, but the stored value keeps the directory casing:
a created user's row is the MappedRecord itself, whose username field holds
the original decoded value. -/
theorem username_lowered_for_lookup_not_storage
    (s : SyncSettings) (env : SyncEnv) (st : UsersState) (e : Entry)
    (attrs : LdapDict) (defaults : Fields) (raw : String)
    (h1 : e.2 = some attrs) (h2 : userDefaults s attrs = .ok defaults)
    (h3 : alookup defaults s.USERNAME_FIELD = some raw)
    (h4 : findUserIexactFrom s (lowerStr raw) st.users 0 = none)
    (h5 : env.gocUserFails (lowerStr raw) = false)
    (h6 : s.USER_CALLBACKS = [])
    (h7 : env.saveFails ⟨defaults, false⟩ = false)
    (h8 : s.REMOVED_USER_CALLBACKS.isEmpty = false) :
    (processUserEntry s env st e).1.users = st.users ++ [⟨defaults, false⟩] ∧
    (processUserEntry s env st e).1.confirmed =
      addConfirmed st.confirmed (lowerStr raw) ∧
    alookup (defaults : Fields) s.USERNAME_FIELD = some raw := by
  obtain ⟨cn, o⟩ := e
  cases o with
  | none => exact absurd h1 (by simp)
  | some attrs' =>
    have ha : attrs' = attrs := by simpa using h1
    subst ha
    refine ⟨?_, ?_, h3⟩ <;>
      simp [processUserEntry, h2, h3, h4, h5, h6, h7, h8, runUserCallbacks,
        set_length_append]

/-- Claim C3 witness: the directory username JaneD is stored with its
original casing while the confirmed set receives janed. -/
theorem username_lowered_witness :
    (processUserEntry uSettings benignEnv ⟨[], [], []⟩
        ("cn=JaneD", some [("uid", [[74, 97, 110, 101, 68]])])).1.users =
      [⟨[("username", "JaneD")], false⟩] ∧
    (processUserEntry uSettings benignEnv ⟨[], [], []⟩
        ("cn=JaneD", some [("uid", [[74, 97, 110, 101, 68]])])).1.confirmed =
      ["janed"] := by
  have h := username_lowered_for_lookup_not_storage uSettings benignEnv
    ⟨[], [], []⟩ ("cn=JaneD", some [("uid", [[74, 97, 110, 101, 68]])])
    [("uid", [[74, 97, 110, 101, 68]])] [("username", "JaneD")] "JaneD"
    rfl rfl rfl rfl rfl rfl rfl rfl
  have hl : lowerStr "JaneD" = "janed" := by decide
  refine ⟨by simpa using h.1, ?_⟩
  rw [h.2.1, hl]
  decide

/-- C4 amended: every dict-shaped user entry whose mapping succeeded and
whose get-or-create step did not raise has its lower-cased username in the
confirmed set at the end of user sync when removal callbacks are
configured; entries whose get-or-create raised are not added. -/
theorem confirmed_membership_without_goc_failure
    (s : SyncSettings) (env : SyncEnv) (st : UsersState) (e : Entry)
    (attrs : LdapDict) (defaults : Fields) (raw : String)
    (h1 : e.2 = some attrs) (h2 : userDefaults s attrs = .ok defaults)
    (h3 : alookup defaults s.USERNAME_FIELD = some raw)
    (hgoc : findUserIexactFrom s (lowerStr raw) st.users 0 = none →
      env.gocUserFails (lowerStr raw) = false)
    (h8 : s.REMOVED_USER_CALLBACKS.isEmpty = false) :
    ∀ rest, (sync_ldap_users s env st (e :: rest)).1.confirmed.contains
      (lowerStr raw) = true := by
  intro rest
  rw [sync_ldap_users_confirmed]
  have hstep : (processUserEntry s env st e).2 = none ∧
      (processUserEntry s env st e).1.confirmed.contains (lowerStr raw) = true := by
    obtain ⟨cn, o⟩ := e
    cases o with
    | none => exact absurd h1 (by simp)
    | some attrs' =>
      have ha : attrs' = attrs := by simpa using h1
      subst ha
      cases hf : findUserIexactFrom s (lowerStr raw) st.users 0 with
      | some pr =>
        obtain ⟨idx, u0⟩ := pr
        constructor
        · simp [processUserEntry, h2, h3, hf]
        · simpa [processUserEntry, h2, h3, hf, h8] using
            contains_addConfirmed_self st.confirmed (lowerStr raw)
      | none =>
        have h5 := hgoc hf
        constructor
        · simp [processUserEntry, h2, h3, hf, h5]
        · simpa [processUserEntry, h2, h3, hf, h5, h8] using
            contains_addConfirmed_self st.confirmed (lowerStr raw)
  simp only [syncUsersLoop, hstep.1]
  exact syncUsersLoop_confirmed_mono s env rest _ (lowerStr raw) hstep.2

/-- Claim C4 witness: the entry for Carol, whose get-or-create succeeds,
ends with carol in the confirmed set after the run. -/
theorem confirmed_membership_witness :
    (sync_ldap_users uSettings benignEnv ⟨[], [], []⟩
        [("cn=Carol", some [("uid", [[67, 97, 114, 111, 108]])])]).1.confirmed.contains
      "carol" = true := by
  have h := confirmed_membership_without_goc_failure uSettings benignEnv
    ⟨[], [], []⟩ ("cn=Carol", some [("uid", [[67, 97, 114, 111, 108]])])
    [("uid", [[67, 97, 114, 111, 108]])] [("username", "Carol")] "Carol"
    rfl rfl rfl (fun _ => rfl) rfl []
  have hl : lowerStr "Carol" = "carol" := by decide
  rw [← hl]
  exact h

/-- C5 amended: a UTF-8 decode failure on a raw attribute value is not
treated as a missing attribute: it propagates out of user sync, aborting
the remaining entries; only a genuinely absent attribute defaults the
mapped field to the empty string. -/
theorem decode_failure_propagates_absent_defaults (s : SyncSettings)
    (ln f : String) (hmem : (ln, f) ∈ s.USER_ATTRIBUTES) :
    (∀ attrs v vs, alookup attrs ln = some (v :: vs) → decodeUtf8 v = none →
      ∃ err, userDefaults s attrs = .error err ∧
        ∀ env st cn rest,
          syncUsersLoop s env st ((cn, some attrs) :: rest) = (st, some err)) ∧
    (∀ attrs d, alookup attrs ln = none →
      (s.USER_ATTRIBUTES.map Prod.snd).Nodup →
      userDefaults s attrs = .ok d → alookup d f = some "") := by
  constructor
  · intro attrs v vs hval hdec
    obtain ⟨err, herr⟩ := userDefaultsLoop_decode_error attrs s.USER_ATTRIBUTES
      ln f v vs hmem hval hdec []
    have huD : userDefaults s attrs = .error err := by
      simp only [userDefaults]
      exact herr
    refine ⟨err, huD, ?_⟩
    intro env st cn rest
    simp [syncUsersLoop, processUserEntry, huD]
  · intro attrs d habs hnd hok
    exact userDefaultsLoop_absent attrs s.USER_ATTRIBUTES [] d ln f hmem habs hnd hok

/-- Claim C5 witness: the invalid byte 255 makes the whole user sync stop
with a UnicodeDecodeError, and a genuinely missing uid attribute defaults
the username field to the empty string. -/
theorem decode_failure_witness :
    (∃ err, userDefaults uSettings [("uid", [[255]])] = Except.error err ∧
      syncUsersLoop uSettings benignEnv ⟨[], [], []⟩
        [("cn=X", some [("uid", [[255]])])] = (⟨[], [], []⟩, some err)) ∧
    alookup [("username", "")] "username" = some "" := by
  have h := decode_failure_propagates_absent_defaults uSettings "uid" "username"
    (by decide)
  constructor
  · obtain ⟨err, he, hloop⟩ := h.1 [("uid", [[255]])] [255] [] rfl (by decide)
    exact ⟨err, he, hloop benignEnv ⟨[], [], []⟩ "cn=X" []⟩
  · exact h.2 [] [("username", "")] rfl (by decide) rfl

/-- C7: for an existing user every MappedRecord field ends up equal to the
mapped value (differing fields are overwritten), the updated flag passed to
each user-sync callback is true exactly when some field differed from the
stored value, and for a newly created user the callbacks receive created
true and updated false. -/
theorem user_update_fields_and_flags
    (s : SyncSettings) (env : SyncEnv) (st : UsersState) (e : Entry)
    (attrs : LdapDict) (defaults : Fields) (raw : String)
    (h1 : e.2 = some attrs) (h2 : userDefaults s attrs = .ok defaults)
    (h3 : alookup defaults s.USERNAME_FIELD = some raw) :
    (∀ idx u0, findUserIexactFrom s (lowerStr raw) st.users 0 = some (idx, u0) →
      (∀ f v, alookup defaults f = some v →
        alookup (applyDefaults u0 defaults).1.fields f = some v) ∧
      (applyDefaults u0 defaults).2 =
        defaults.any (fun p => !(alookup u0.fields p.1 == some p.2)) ∧
      (processUserEntry s env st e).1.trace =
        st.trace ++ s.USER_CALLBACKS.map
          (fun p => Event.userCb p (lowerStr raw) false
            (applyDefaults u0 defaults).2)) ∧
    (findUserIexactFrom s (lowerStr raw) st.users 0 = none →
      env.gocUserFails (lowerStr raw) = false →
      (processUserEntry s env st e).1.trace =
        st.trace ++ s.USER_CALLBACKS.map
          (fun p => Event.userCb p (lowerStr raw) true false)) := by
  constructor
  · intro idx u0 hfind
    refine ⟨?_, ?_, ?_⟩
    · intro f v hv
      exact applyDefaultsLoop_sets u0 false defaults f v
        (userDefaults_nodup s attrs defaults h2) hv
    · simpa using applyDefaultsLoop_flag u0 false defaults
    · simp [processUserEntry, h1, h2, h3, hfind, runUserCallbacks_trace]
  · intro hfind hgoc
    simp [processUserEntry, h1, h2, h3, hfind, hgoc, runUserCallbacks_trace]

/-- Claim C7 witness: updating the existing user dave, whose stored email
differs from the freshly mapped value, overwrites the field, and the single
user-sync callback is passed created false and updated true. -/
theorem user_update_fields_and_flags_witness :
    alookup (applyDefaults daveUser
        [("username", "dave"), ("email", "new")]).1.fields "email" =
      some "new" ∧
    (applyDefaults daveUser [("username", "dave"), ("email", "new")]).2 = true ∧
    (processUserEntry u2Settings benignEnv ⟨[daveUser], [], []⟩
        ("cn=dave", some [("uid", [[100, 97, 118, 101]]),
          ("mail", [[110, 101, 119]])])).1.trace =
      [Event.userCb "app.sync" "dave" false true] := by
  have h := (user_update_fields_and_flags u2Settings benignEnv
    ⟨[daveUser], [], []⟩
    ("cn=dave", some [("uid", [[100, 97, 118, 101]]), ("mail", [[110, 101, 119]])])
    [("uid", [[100, 97, 118, 101]]), ("mail", [[110, 101, 119]])]
    [("username", "dave"), ("email", "new")] "dave"
    rfl rfl rfl).1 0 daveUser rfl
  obtain ⟨ha, hb, hc⟩ := h
  refine ⟨ha "email" "new" rfl, ?_, ?_⟩
  · rw [hb]; decide
  · rw [hc]; rw [hb]; decide

/-- C9: a user entry whose get-or-create succeeded but whose save raises
IntegrityError is caught: the entry produces no uncaught error, the loop
continues with the remaining entries, the store keeps its pre-save content
for that row, and the lower-cased username still joins the confirmed set
when removal callbacks are configured. -/
theorem save_failure_isolated_confirmed
    (s : SyncSettings) (env : SyncEnv) (st : UsersState) (e : Entry)
    (attrs : LdapDict) (defaults : Fields) (raw : String)
    (h1 : e.2 = some attrs) (h2 : userDefaults s attrs = .ok defaults)
    (h3 : alookup defaults s.USERNAME_FIELD = some raw)
    (hgoc : findUserIexactFrom s (lowerStr raw) st.users 0 = none →
      env.gocUserFails (lowerStr raw) = false)
    (hsave : ∀ u, env.saveFails u = true)
    (h8 : s.REMOVED_USER_CALLBACKS.isEmpty = false) :
    (processUserEntry s env st e).2 = none ∧
    (processUserEntry s env st e).1.confirmed.contains (lowerStr raw) = true ∧
    (∀ rest, syncUsersLoop s env st (e :: rest) =
      syncUsersLoop s env (processUserEntry s env st e).1 rest) ∧
    ((processUserEntry s env st e).1.users = st.users ∨
      (processUserEntry s env st e).1.users = st.users ++ [⟨defaults, true⟩]) := by
  have hmain : (processUserEntry s env st e).2 = none ∧
      (processUserEntry s env st e).1.confirmed.contains
        (lowerStr raw) = true ∧
      ((processUserEntry s env st e).1.users = st.users ∨
        (processUserEntry s env st e).1.users =
          st.users ++ [⟨defaults, true⟩]) := by
    cases hf : findUserIexactFrom s (lowerStr raw) st.users 0 with
    | some pr =>
      obtain ⟨idx, u0⟩ := pr
      refine ⟨?_, ?_, Or.inl ?_⟩
      · simp [processUserEntry, h1, h2, h3, hf]
      · simpa [processUserEntry, h1, h2, h3, hf, h8] using
          contains_addConfirmed_self st.confirmed (lowerStr raw)
      · simp [processUserEntry, h1, h2, h3, hf, hsave _]
    | none =>
      have h5 := hgoc hf
      refine ⟨?_, ?_, Or.inr ?_⟩
      · simp [processUserEntry, h1, h2, h3, hf, h5]
      · simpa [processUserEntry, h1, h2, h3, hf, h5, h8] using
          contains_addConfirmed_self st.confirmed (lowerStr raw)
      · simp [processUserEntry, h1, h2, h3, hf, h5, hsave _]
  refine ⟨hmain.1, hmain.2.1, ?_, hmain.2.2⟩
  intro rest
  simp only [syncUsersLoop, hmain.1]

/-- Claim C9 witness: the entry for Eve, whose save raises IntegrityError,
produces no uncaught error and eve still joins the confirmed set. -/
theorem save_failure_isolated_witness :
    (processUserEntry uSettings saveFailEnv ⟨[], [], []⟩
        ("cn=Eve", some [("uid", [[69, 118, 101]])])).2 = none ∧
    (processUserEntry uSettings saveFailEnv ⟨[], [], []⟩
        ("cn=Eve", some [("uid", [[69, 118, 101]])])).1.confirmed.contains
      "eve" = true := by
  have h := save_failure_isolated_confirmed uSettings saveFailEnv ⟨[], [], []⟩
    ("cn=Eve", some [("uid", [[69, 118, 101]])]) [("uid", [[69, 118, 101]])]
    [("username", "Eve")] "Eve" rfl rfl rfl (fun _ => rfl) (fun _ => rfl) rfl
  have hl : lowerStr "Eve" = "eve" := by decide
  exact ⟨h.1, by rw [← hl]; exact h.2.1⟩

end LdapSync
